import Mathlib

/-!
Verification of the semantic markdown chunker.

The embedding translates `markdown_parser.py` (the `SemanticMarkdownParser`
class) together with the `split_text_into_sentences` wrapper of
`text_splitter.py`.  External collaborators (the markdown segmenter, the
tokenizer oracle, the sentence splitter) are parameters of the definitions,
constrained where needed by the contracts the design document states for
them.  Python string primitives (`strip`, `split`, `in`, `count`,
`str.join`) are re-implemented over `List Char` so that every definition
is executable by kernel reduction.
-/

/-- Error kinds the parser can raise.  `invalidInput` models the two
`ValueError`s of `parse_markdown_to_tree`; `indexError` models the
`IndexError` that `node_text.splitlines()[0]` raises on an empty
section text. -/
inductive ParseError : Type where
  | invalidInput : ParseError
  | indexError : ParseError
deriving DecidableEq

/-- A section produced by the external Segment Source
(`MarkdownNodeParser.get_nodes_from_node`): its raw text and the
`header_path` metadata string. -/
structure ParsedNode : Type where
  text : String
  headerPath : String
deriving DecidableEq

/-- `SemanticChunk` of `markdown_parser.py`. -/
structure SemanticChunk : Type where
  content : String
  token_length : Nat
  headers : List String
  pages : Finset ℤ
deriving DecidableEq

/-- `TreeElement` of `markdown_parser.py`: a node of the heading
hierarchy (header, content, token_length, children, pages). -/
inductive TreeElement : Type where
  | mk : Option String → String → Nat → List TreeElement → Finset ℤ → TreeElement

/-- The `header` field of a `TreeElement`. -/
def TreeElement.header : TreeElement → Option String
  | .mk h _ _ _ _ => h

/-- The `content` field of a `TreeElement`. -/
def TreeElement.content : TreeElement → String
  | .mk _ c _ _ _ => c

/-- The `token_length` field of a `TreeElement`. -/
def TreeElement.token_length : TreeElement → Nat
  | .mk _ _ t _ _ => t

/-- The `children` field of a `TreeElement`. -/
def TreeElement.children : TreeElement → List TreeElement
  | .mk _ _ _ cs _ => cs

/-- The `pages` field of a `TreeElement`. -/
def TreeElement.pages : TreeElement → Finset ℤ
  | .mk _ _ _ _ pg => pg

/-- Whitespace in the sense of Python's `str.strip` and the regex
class used by the heading pattern. -/
def isWsChar (c : Char) : Bool :=
  c == ' ' || c == '\t' || c == '\n' || c == '\r'

/-- Python `s.strip()`: remove leading and trailing whitespace. -/
def pyStrip (s : String) : String :=
  ⟨((s.data.dropWhile isWsChar).reverse.dropWhile isWsChar).reverse⟩

/-- Python `s.strip("/")` as used on the `header_path` metadata. -/
def stripSlashes (s : String) : String :=
  ⟨((s.data.dropWhile (fun c => c == '/')).reverse.dropWhile (fun c => c == '/')).reverse⟩

/-- Python `sep.join(parts)`. -/
def pyJoin (sep : String) : List String → String
  | [] => ""
  | [x] => x
  | x :: y :: ys => x ++ sep ++ pyJoin sep (y :: ys)

/-- Worker for `pySplit`: left-to-right scan, splitting at each
non-overlapping occurrence of `sep`.  The fuel argument (initially the
length of the text) only serves to make the recursion structural. -/
def pySplitAux (sep : List Char) : Nat → List Char → List Char → List (List Char)
  | _, acc, [] => [acc.reverse]
  | 0, acc, h => [acc.reverse ++ h]
  | fuel + 1, acc, c :: rest =>
      if sep.isPrefixOf (c :: rest) then
        acc.reverse :: pySplitAux sep fuel [] ((c :: rest).drop sep.length)
      else
        pySplitAux sep fuel (c :: acc) rest

/-- Python `s.split(sep)` for a non-empty separator. -/
def pySplit (s sep : String) : List String :=
  (pySplitAux sep.data s.data.length [] s.data).map (fun l => (⟨l⟩ : String))

/-- Python `needle in hay` on the underlying character lists. -/
def containsSub (needle : List Char) : List Char → Bool
  | [] => needle.isPrefixOf []
  | c :: t => needle.isPrefixOf (c :: t) || containsSub needle t

/-- Python `needle in hay` for strings. -/
def strIn (needle hay : String) : Bool :=
  containsSub needle.data hay.data

/-- Worker for `countOcc`: non-overlapping left-to-right count, with
fuel making the recursion structural. -/
def countOccAux (needle : List Char) : Nat → List Char → Nat
  | _, [] => 0
  | 0, _ => 0
  | fuel + 1, c :: rest =>
      if needle ≠ [] ∧ needle.isPrefixOf (c :: rest) then
        countOccAux needle fuel ((c :: rest).drop needle.length) + 1
      else
        countOccAux needle fuel rest

/-- Python `hay.count(needle)` for a non-empty needle. -/
def countOcc (needle hay : String) : Nat :=
  countOccAux needle.data hay.data.length hay.data

/-- Python `s.splitlines()[0]`: the text of the first line (the caller
is responsible for `s` being non-empty). -/
def firstRawLine (s : String) : String :=
  ⟨s.data.takeWhile (fun c => !(c == '\n' || c == '\r'))⟩

/-- The line list a section is parsed from: `node_text.split("\n")`
with the first occurrence of a literal `"---"` element removed
(Python `lines.remove("---")` guarded by `if "---" in lines`). -/
def sectionLines (t : String) : List String :=
  (pySplit t "\n").erase "---"

/-- `path_str.strip("/").split("/")`, or `[]` when the stripped path
is empty. -/
def pathParts (p : String) : List String :=
  let s := stripSlashes p
  if s = "" then [] else pySplit s "/"

/-- The heading pattern `^(#+)\s+(.*)$` applied to the (stripped)
first line, returning `group(2).strip()` on success. -/
def headingMatch (line : String) : Option String :=
  let hashes := line.data.takeWhile (fun c => c == '#')
  let rest := line.data.dropWhile (fun c => c == '#')
  match hashes, rest with
  | [], _ => none
  | _ :: _, [] => none
  | _ :: _, c :: cs =>
      if isWsChar c then some (pyStrip ⟨(c :: cs).dropWhile isWsChar⟩) else none

/-- The common-prefix counting loop of `combine_chunks`. -/
def commonPrefixLength : List String → List String → Nat
  | a :: as, b :: bs => if a = b then commonPrefixLength as bs + 1 else 0
  | _, _ => 0

/-- An inline heading line `'#' * level + " " + header` synthesized by
`combine_chunks`. -/
def headerLine (lvl : Nat) (h : String) : String :=
  (⟨List.replicate lvl '#'⟩ : String) ++ " " ++ h

/-- The heading lines synthesized for a run of headers, the first at
marker level `lvl`. -/
def synthLines (lvl : Nat) : List String → List String
  | [] => []
  | h :: hs => headerLine lvl h :: synthLines (lvl + 1) hs

/-- The combined content `combine_chunks` builds: either the two
contents joined by a blank line (identical header lists), or the parts
list joined by `"\n\n"`, where the second chunk's synthesized heading
lines carry the leading `"\n"` the Python f-string inserts. -/
def combineContent (a b : SemanticChunk) : String :=
  let p := commonPrefixLength a.headers b.headers
  if a.headers = b.headers then
    a.content ++ "\n\n" ++ b.content
  else
    pyJoin "\n\n"
      (synthLines (p + 1) (a.headers.drop p) ++ [a.content] ++
        (synthLines (p + 1) (b.headers.drop p)).map (fun l => "\n" ++ l) ++ [b.content])

/-- `combine_chunks`: combined content, recomputed token length,
common-prefix headers, page-set union. -/
def combineChunks (tl : String → Nat) (a b : SemanticChunk) : SemanticChunk :=
  { content := combineContent a b
    token_length := tl (combineContent a b)
    headers := a.headers.take (commonPrefixLength a.headers b.headers)
    pages := a.pages ∪ b.pages }

/-- `split_text_into_sentences` of `text_splitter.py` with its default
arguments: fragments under 10 tokens are dropped, otherwise the
external sentence splitter (parameter `split`) is consulted. -/
def splitTextIntoSentences (tl : String → Nat) (split : String → List String)
    (text : String) : List String :=
  if tl text < 10 then [] else split text

/-- The header list passed to a child's recursive call:
`current_headers.copy()` extended by `child.header` when that header
is truthy (neither `None` nor the empty string). -/
def childHeaders (hd : List String) (c : TreeElement) : List String :=
  match c.header with
  | some h => if h = "" then hd else hd ++ [h]
  | none => hd

/-- Step 2 of `process_tree_to_chunks`: the chunks a node's own content
contributes (one direct chunk within budget, fallback-splitter chunks
above it, none when the content is blank). -/
def ownContentChunks (tl : String → Nat) (split : String → List String)
    (maxTokens : Nat) (root : TreeElement) (hd : List String) : List SemanticChunk :=
  if pyStrip root.content = "" then []
  else if maxTokens < root.token_length then
    (splitTextIntoSentences tl split root.content).map
      (fun s => { content := s, token_length := tl s, headers := hd, pages := root.pages })
  else
    [{ content := root.content, token_length := root.token_length,
       headers := hd, pages := root.pages }]

/-- The greedy adjacent-merge loop of `process_tree_to_chunks`, with
the running accumulator (`current_chunk`) made explicit. -/
def mergeLoop (tl : String → Nat) (maxTokens : Nat) :
    Option SemanticChunk → List SemanticChunk → List SemanticChunk
  | none, [] => []
  | none, c :: rest => mergeLoop tl maxTokens (some c) rest
  | some a, [] => [a]
  | some a, c :: rest =>
      let p := combineChunks tl a c
      if p.token_length ≤ maxTokens then mergeLoop tl maxTokens (some p) rest
      else a :: mergeLoop tl maxTokens (some c) rest

/-- The greedy merge pass applied to a working chunk list. -/
def mergeChunks (tl : String → Nat) (maxTokens : Nat)
    (chunks : List SemanticChunk) : List SemanticChunk :=
  mergeLoop tl maxTokens none chunks

mutual
/-- `process_tree_to_chunks`: children first (each child merged
recursively), then the node's own content, then the greedy merge pass
over the concatenated working list. -/
def processTreeToChunks (tl : String → Nat) (split : String → List String)
    (maxTokens : Nat) : TreeElement → List String → List SemanticChunk
  | .mk h c tln cs pg, hd =>
      mergeChunks tl maxTokens
        (processChildren tl split maxTokens cs hd ++
          ownContentChunks tl split maxTokens (.mk h c tln cs pg) hd)
/-- The `for child in root.children` loop of `process_tree_to_chunks`:
each child's merged result, concatenated in child order. -/
def processChildren (tl : String → Nat) (split : String → List String)
    (maxTokens : Nat) : List TreeElement → List String → List SemanticChunk
  | [], _ => []
  | c :: cs, hd =>
      processTreeToChunks tl split maxTokens c (childHeaders hd c) ++
        processChildren tl split maxTokens cs hd
end

/-- The working list (`chunks`) of `process_tree_to_chunks` before the
greedy merge pass runs at the current node. -/
def preMergeChunks (tl : String → Nat) (split : String → List String)
    (maxTokens : Nat) (root : TreeElement) (hd : List String) : List SemanticChunk :=
  processChildren tl split maxTokens root.children hd ++
    ownContentChunks tl split maxTokens root hd

/-- The heading-path walk of `parse_markdown_to_tree`: descend along
`path_parts`, at each level modifying the first child whose header
equals the path component (appending a fresh empty intermediate node
when none matches), and append the new leaf as the last child of the
node reached. -/
def insertPath : TreeElement → List String → TreeElement → TreeElement
  | .mk h c t cs pg, [], nc => .mk h c t (cs ++ [nc]) pg
  | .mk h c t cs pg, p :: rest, nc =>
      match cs.findIdx? (fun ch => ch.header == some p) with
      | some i => .mk h c t (cs.set i (insertPath (cs.getD i (.mk none "" 0 [] ∅)) rest nc)) pg
      | none => .mk h c t (cs ++ [insertPath (.mk (some p) "" 0 [] ∅) rest nc]) pg

/-- The per-section body of the `for node in parsed_nodes` loop of
`parse_markdown_to_tree`, producing the new leaf node: line cleanup,
heading detection, page-span computation, token count.  An empty
section text raises `indexError` (Python `splitlines()[0]`). -/
def buildNode (tl : String → Nat) (pb : String) (pages : List String)
    (nd : ParsedNode) : Except ParseError TreeElement :=
  if nd.text = "" then .error .indexError
  else
    let lines := sectionLines nd.text
    let headingLine := pyStrip (lines.headD "")
    let pidx : ℤ :=
      match pages.findIdx? (fun pg => strIn (firstRawLine nd.text) pg) with
      | some i => (i : ℤ)
      | none => -1
    let pcount : Finset ℤ := Finset.Ico pidx (pidx + (countOcc pb nd.text : ℤ) + 1)
    match headingMatch headingLine with
    | some h =>
        let content := pyStrip (pyJoin "\n" lines.tail)
        .ok (.mk (some h) content (tl content) [] pcount)
    | none => .ok (.mk none nd.text (tl nd.text) [] pcount)

/-- `parse_markdown_to_tree`: reject blank input, consult the Segment
Source (parameter `seg`), reject an empty section list, then fold every
section into the tree via the heading-path walk. -/
def parseMarkdownToTree (tl : String → Nat) (seg : String → List ParsedNode)
    (text pb : String) : Except ParseError TreeElement :=
  if pyStrip text = "" then .error .invalidInput
  else if seg text = [] then .error .invalidInput
  else
    (seg text).foldlM
      (fun acc nd =>
        (buildNode tl pb (pySplit text pb) nd).map
          (fun child => insertPath acc (pathParts nd.headerPath) child))
      (.mk none "" 0 [] ∅)

/-- `get_full_header_path`: headers joined by `" > "`, falsy entries
skipped by `filter(None, headers)`. -/
def getFullHeaderPath (headers : List String) : String :=
  pyJoin " > " (headers.filter (fun h => !(h == "")))

/-- `format_chunk_with_headers`. -/
def formatChunkWithHeaders (headers : List String) (content : String)
    (includeHashes : Bool) : String :=
  if headers = [] then content
  else if includeHashes then content
  else getFullHeaderPath headers ++ "\n\n" ++ content

/-- `get_semantic_chunks`: process the tree, then format every chunk
with its header path. -/
def getSemanticChunks (tl : String → Nat) (split : String → List String)
    (maxTokens : Nat) (root : TreeElement) : List String :=
  (processTreeToChunks tl split maxTokens root []).map
    (fun c => formatChunkWithHeaders c.headers c.content false)

/-- Marker levels `lvl, lvl+1, …` for `n` synthesized heading lines
(used to state the combine algorithm the way the design document
words it). -/
def levelsFrom (lvl : Nat) : Nat → List Nat
  | 0 => []
  | n + 1 => lvl :: levelsFrom (lvl + 1) n

/-- Modelled from the spec wording of claim C4: the combined content
with one synthesized heading line per divergent header on both sides,
all parts joined by blank lines (no extra leading newline anywhere). -/
def claimCombinedContent (a b : SemanticChunk) : String :=
  let p := commonPrefixLength a.headers b.headers
  if a.headers = b.headers then
    a.content ++ "\n\n" ++ b.content
  else
    pyJoin "\n\n"
      (List.zipWith headerLine (levelsFrom (p + 1) (a.headers.drop p).length) (a.headers.drop p) ++
        [a.content] ++
        List.zipWith headerLine (levelsFrom (p + 1) (b.headers.drop p).length) (b.headers.drop p) ++
        [b.content])

/-- The amended wording of claim C4: as `claimCombinedContent`, except
that every heading line synthesized for the second chunk carries one
extra leading newline. -/
def amendedCombinedContent (a b : SemanticChunk) : String :=
  let p := commonPrefixLength a.headers b.headers
  if a.headers = b.headers then
    a.content ++ "\n\n" ++ b.content
  else
    pyJoin "\n\n"
      (List.zipWith headerLine (levelsFrom (p + 1) (a.headers.drop p).length) (a.headers.drop p) ++
        [a.content] ++
        (List.zipWith headerLine (levelsFrom (p + 1) (b.headers.drop p).length) (b.headers.drop p)).map
          (fun l => "\n" ++ l) ++
        [b.content])

/-- Total token weight of the heading lines synthesized for a header
run starting at marker level `lvl`. -/
def synthVal (tl : String → Nat) (lvl : Nat) (hs : List String) : Nat :=
  ((synthLines lvl hs).map tl).sum

/-- The accumulator invariant of the greedy merge loop: `e` is a chunk
the loop built starting from `c` (possibly `c` itself), so its headers
are a prefix of `c`'s and its content carries at least `c`'s content
weight plus the weight of `c`'s headers that were pushed inline. -/
def MergeAbsorbs (tl : String → Nat) (c e : SemanticChunk) : Prop :=
  e.headers <+: c.headers ∧
    tl c.content + synthVal tl (e.headers.length + 1) (c.headers.drop e.headers.length) ≤
      tl e.content

/-- The word-count test tokenizer the design document's testable
properties assume, realized as the count of non-whitespace characters
(deterministic, blank-line-additive). -/
def cnt (s : String) : Nat :=
  (s.data.filter (fun c => !(isWsChar c))).length

theorem cpl_le_left : ∀ a b : List String, commonPrefixLength a b ≤ a.length
  | [], _ => Nat.zero_le _
  | _ :: _, [] => Nat.zero_le _
  | a :: as, b :: bs => by
      unfold commonPrefixLength
      by_cases h : a = b <;> simp [h]
      exact cpl_le_left as bs

theorem cpl_le_right : ∀ a b : List String, commonPrefixLength a b ≤ b.length
  | [], _ => Nat.zero_le _
  | _ :: _, [] => Nat.zero_le _
  | a :: as, b :: bs => by
      unfold commonPrefixLength
      by_cases h : a = b <;> simp [h]
      exact cpl_le_right as bs

theorem take_cpl_eq : ∀ a b : List String,
    a.take (commonPrefixLength a b) = b.take (commonPrefixLength a b)
  | [], _ => by simp [commonPrefixLength]
  | _ :: _, [] => by simp [commonPrefixLength]
  | a :: as, b :: bs => by
      unfold commonPrefixLength
      by_cases h : a = b <;> simp [h]
      exact take_cpl_eq as bs

theorem length_le_cpl_of_common : ∀ l a b : List String,
    l <+: a → l <+: b → l.length ≤ commonPrefixLength a b
  | [], _, _, _, _ => Nat.zero_le _
  | x :: ls, a, b, ha, hb => by
      obtain ⟨ta, rfl⟩ := ha
      obtain ⟨tb, hb'⟩ := hb
      cases b with
      | nil => simp at hb'
      | cons y bs =>
          rw [List.cons_append] at hb'
          obtain ⟨rfl, hlb⟩ := List.cons_eq_cons.mp hb'
          simp only [List.cons_append, commonPrefixLength, if_pos rfl, List.length_cons]
          exact Nat.succ_le_succ
            (length_le_cpl_of_common ls (ls ++ ta) bs ⟨ta, rfl⟩ ⟨tb, hlb⟩)

theorem cpl_self : ∀ a : List String, commonPrefixLength a a = a.length
  | [] => rfl
  | a :: as => by simp [commonPrefixLength, cpl_self as]

/-- C3.  For every pair of chunks `a` and `b`, `combine_chunks` returns a
chunk whose `headers` is the longest common prefix of `a.headers` and
`b.headers` (a common prefix of both which any other common prefix is a
prefix of), whose `pages` is the union of the two page sets, and whose
`token_length` is the tokenizer's recomputed count of the combined
content. -/
theorem combineChunks_correct (tl : String → Nat) (a b : SemanticChunk) :
    (combineChunks tl a b).headers <+: a.headers ∧
    (combineChunks tl a b).headers <+: b.headers ∧
    (∀ l : List String, l <+: a.headers → l <+: b.headers →
      l <+: (combineChunks tl a b).headers) ∧
    (combineChunks tl a b).pages = a.pages ∪ b.pages ∧
    (combineChunks tl a b).token_length = tl (combineChunks tl a b).content := by
  refine ⟨List.take_prefix _ _, ?_, ?_, rfl, rfl⟩
  · show a.headers.take (commonPrefixLength a.headers b.headers) <+: b.headers
    rw [take_cpl_eq]
    exact List.take_prefix _ _
  · intro l hla hlb
    show l <+: a.headers.take (commonPrefixLength a.headers b.headers)
    rw [List.prefix_take_iff]
    exact ⟨hla, length_le_cpl_of_common l _ _ hla hlb⟩

/-- Closed instance of `combineChunks_correct`, discharging its inner
prefix hypotheses at concrete chunks. -/
theorem combineChunks_correct_witness :
    (combineChunks cnt ⟨"A", 1, ["T", "X"], {0}⟩ ⟨"B", 2, ["T", "Y"], {1}⟩).pages =
        ({0} : Finset ℤ) ∪ {1} ∧
    ["T"] <+: (combineChunks cnt ⟨"A", 1, ["T", "X"], {0}⟩ ⟨"B", 2, ["T", "Y"], {1}⟩).headers :=
  ⟨(combineChunks_correct cnt ⟨"A", 1, ["T", "X"], {0}⟩ ⟨"B", 2, ["T", "Y"], {1}⟩).2.2.2.1,
    (combineChunks_correct cnt ⟨"A", 1, ["T", "X"], {0}⟩ ⟨"B", 2, ["T", "Y"], {1}⟩).2.2.1
      ["T"] (by decide) (by decide)⟩

theorem synthLines_zipWith : ∀ (hs : List String) (lvl : Nat),
    synthLines lvl hs = List.zipWith headerLine (levelsFrom lvl hs.length) hs
  | [], _ => rfl
  | h :: hs, lvl => by
      simp only [synthLines, List.length_cons, levelsFrom, List.zipWith_cons_cons]
      rw [synthLines_zipWith hs (lvl + 1)]

/-- C4 counterexample: at two concrete single-header chunks the code's
combined content differs from the claim's blank-line-joined rendering,
because the second chunk's synthesized heading line carries an extra
leading newline. -/
theorem combineContent_claim_cex :
    combineContent ⟨"A", 0, ["T"], ∅⟩ ⟨"B", 0, ["U"], ∅⟩ ≠
      claimCombinedContent ⟨"A", 0, ["T"], ∅⟩ ⟨"B", 0, ["U"], ∅⟩ := by
  decide

/-- C4 (amended).  The combined content is `a.content`, blank line,
`b.content` when the header lists agree; otherwise it is the blank-line
join of one synthesized heading line per header of `a` beyond the common
prefix (marker count equal to the header's level), `a.content`, the same
pattern for `b`'s headers except that each of `b`'s synthesized lines
carries one extra leading newline, then `b.content`. -/
theorem combineContent_eq_amended (a b : SemanticChunk) :
    combineContent a b = amendedCombinedContent a b := by
  unfold combineContent amendedCombinedContent
  simp only [synthLines_zipWith]

/-- C8.  With `include_hashes` left at its default `False`, the
formatter renders a chunk with non-empty headers as the headers joined
by the `" > "` separator (falsy entries skipped), a blank line, then the
content verbatim; with empty headers the content alone. -/
theorem formatChunkWithHeaders_spec (headers : List String) (content : String) :
    formatChunkWithHeaders headers content false =
      if headers = [] then content
      else pyJoin " > " (headers.filter (fun h => !(h == ""))) ++ "\n\n" ++ content := by
  unfold formatChunkWithHeaders getFullHeaderPath
  by_cases h : headers = [] <;> simp [h]

theorem processChildren_join (tl : String → Nat) (split : String → List String)
    (maxTokens : Nat) : ∀ (cs : List TreeElement) (hd : List String),
    processChildren tl split maxTokens cs hd =
      (cs.map (fun c => processTreeToChunks tl split maxTokens c (childHeaders hd c))).flatten
  | [], _ => rfl
  | c :: cs, hd => by
      simp only [processChildren, List.map_cons, List.flatten_cons]
      rw [processChildren_join tl split maxTokens cs hd]

theorem processTreeToChunks_run (tl : String → Nat) (split : String → List String)
    (maxTokens : Nat) (root : TreeElement) (hd : List String) :
    processTreeToChunks tl split maxTokens root hd =
      mergeChunks tl maxTokens (preMergeChunks tl split maxTokens root hd) := by
  cases root
  rfl

/-- C9.  The working list of `process_tree_to_chunks` (the list the
greedy merge pass then runs on) is the concatenation, in child order, of
all descendants' chunks followed by the chunks of the node's own
directly-owned content. -/
theorem preMergeChunks_descendants_first (tl : String → Nat)
    (split : String → List String) (maxTokens : Nat) (root : TreeElement)
    (hd : List String) :
    preMergeChunks tl split maxTokens root hd =
      (root.children.map
        (fun c => processTreeToChunks tl split maxTokens c (childHeaders hd c))).flatten ++
        ownContentChunks tl split maxTokens root hd ∧
    processTreeToChunks tl split maxTokens root hd =
      mergeChunks tl maxTokens (preMergeChunks tl split maxTokens root hd) :=
  ⟨by rw [preMergeChunks, processChildren_join], processTreeToChunks_run _ _ _ _ _⟩

/-- C2.  A node whose own content is non-blank and whose token length is
within budget contributes exactly one chunk, carrying the content
verbatim, the stored token length, the current header path and the
node's pages; it is appended after the children's chunks, and every such
step-2 chunk is within the budget. -/
theorem ownContent_direct_chunk (tl : String → Nat) (split : String → List String)
    (maxTokens : Nat) (root : TreeElement) (hd : List String)
    (hblank : pyStrip root.content ≠ "") (hle : root.token_length ≤ maxTokens) :
    ownContentChunks tl split maxTokens root hd =
      [{ content := root.content, token_length := root.token_length,
         headers := hd, pages := root.pages }] ∧
    preMergeChunks tl split maxTokens root hd =
      processChildren tl split maxTokens root.children hd ++
        [{ content := root.content, token_length := root.token_length,
           headers := hd, pages := root.pages }] ∧
    ∀ c ∈ ownContentChunks tl split maxTokens root hd, c.token_length ≤ maxTokens := by
  have hown : ownContentChunks tl split maxTokens root hd =
      [{ content := root.content, token_length := root.token_length,
         headers := hd, pages := root.pages }] := by
    unfold ownContentChunks
    rw [if_neg hblank, if_neg (Nat.not_lt.mpr hle)]
  refine ⟨hown, ?_, ?_⟩
  · rw [preMergeChunks, hown]
  · intro c hc
    rw [hown] at hc
    have hce := List.mem_singleton.mp hc
    subst hce
    exact hle

/-- Closed instance of `ownContent_direct_chunk` at a concrete in-budget
node. -/
theorem ownContent_direct_chunk_witness :
    ownContentChunks cnt (fun _ => []) 5 (.mk none "x" 1 [] {0}) ["H"] =
      [{ content := "x", token_length := 1, headers := ["H"], pages := {0} }] ∧
    preMergeChunks cnt (fun _ => []) 5 (.mk none "x" 1 [] {0}) ["H"] =
      processChildren cnt (fun _ => []) 5 (TreeElement.mk none "x" 1 [] {0}).children ["H"] ++
        [{ content := "x", token_length := 1, headers := ["H"], pages := {0} }] :=
  ⟨(ownContent_direct_chunk cnt (fun _ => []) 5 (.mk none "x" 1 [] {0}) ["H"]
      (by decide) (by decide)).1,
    (ownContent_direct_chunk cnt (fun _ => []) 5 (.mk none "x" 1 [] {0}) ["H"]
      (by decide) (by decide)).2.1⟩

theorem buildNode_ok (tl : String → Nat) (pb : String) (pages : List String)
    (nd : ParsedNode) (h : nd.text ≠ "") :
    ∃ c, buildNode tl pb pages nd = Except.ok c := by
  unfold buildNode
  rw [if_neg h]
  dsimp only
  split <;> exact ⟨_, rfl⟩

theorem parseFold_ok (tl : String → Nat) (pb : String) (pages : List String) :
    ∀ (nds : List ParsedNode) (acc : TreeElement), (∀ nd ∈ nds, nd.text ≠ "") →
    ∃ t, nds.foldlM
      (fun acc nd =>
        (buildNode tl pb pages nd).map
          (fun child => insertPath acc (pathParts nd.headerPath) child))
      acc = Except.ok t
  | [], acc, _ => ⟨acc, rfl⟩
  | nd :: nds, acc, h => by
      obtain ⟨c, hc⟩ := buildNode_ok tl pb pages nd (h nd (List.mem_cons_self _ _))
      rw [List.foldlM_cons, hc]
      exact parseFold_ok tl pb pages nds
        (insertPath acc (pathParts nd.headerPath) c)
        (fun x hx => h x (List.mem_cons_of_mem _ hx))

/-- C5.  Provided the Segment Source yields no empty-text section (it
produces sections of the document), `parse_markdown_to_tree` fails
exactly on blank input or an empty section list, the only error it
raises is the invalid-input error, and it propagates to the caller (the
`Except` value is returned, never caught). -/
theorem parseMarkdownToTree_error_iff (tl : String → Nat)
    (seg : String → List ParsedNode) (text pb : String)
    (hne : ∀ nd ∈ seg text, nd.text ≠ "") :
    ((∃ e, parseMarkdownToTree tl seg text pb = Except.error e) ↔
      (pyStrip text = "" ∨ seg text = [])) ∧
    (∀ e, parseMarkdownToTree tl seg text pb = Except.error e →
      e = ParseError.invalidInput) := by
  unfold parseMarkdownToTree
  by_cases h1 : pyStrip text = ""
  · rw [if_pos h1]
    refine ⟨⟨fun _ => Or.inl h1, fun _ => ⟨_, rfl⟩⟩, fun e he => ?_⟩
    cases he
    rfl
  · rw [if_neg h1]
    by_cases h2 : seg text = []
    · rw [if_pos h2]
      refine ⟨⟨fun _ => Or.inr h2, fun _ => ⟨_, rfl⟩⟩, fun e he => ?_⟩
      cases he
      rfl
    · rw [if_neg h2]
      obtain ⟨t, ht⟩ := parseFold_ok tl pb (pySplit text pb) (seg text)
        (.mk none "" 0 [] ∅) hne
      rw [ht]
      refine ⟨⟨fun he => ?_, fun hor => ?_⟩, fun e he => ?_⟩
      · obtain ⟨e, he⟩ := he
        cases he
      · exact absurd hor (by simp [h1, h2])
      · cases he

/-- Closed instance of `parseMarkdownToTree_error_iff` at a concrete
well-formed input (no error is raised there). -/
theorem parseMarkdownToTree_error_iff_witness :
    ((∃ e, parseMarkdownToTree cnt (fun _ => [⟨"hi", "/"⟩]) "hi" "\n---\n" =
        Except.error e) ↔
      (pyStrip "hi" = "" ∨ (fun _ => [(⟨"hi", "/"⟩ : ParsedNode)]) "hi" = [])) ∧
    (∀ e, parseMarkdownToTree cnt (fun _ => [⟨"hi", "/"⟩]) "hi" "\n---\n" =
        Except.error e → e = ParseError.invalidInput) :=
  parseMarkdownToTree_error_iff cnt (fun _ => [⟨"hi", "/"⟩]) "hi" "\n---\n"
    (by decide)

/-- C6 counterexample: for the heading-free document `"hello world"`
the parse succeeds, but the root's `content` field is empty rather than
the document text; the text ends up in a header-less child instead. -/
theorem parse_headerless_root_cex :
    (parseMarkdownToTree cnt (fun _ => [⟨"hello world", "/"⟩])
        "hello world" "\n---\n").toOption.map TreeElement.content = some "" ∧
    (parseMarkdownToTree cnt (fun _ => [⟨"hello world", "/"⟩])
        "hello world" "\n---\n").toOption.map
        (fun t => t.children.map TreeElement.content) = some ["hello world"] ∧
    ("hello world" : String) ≠ "" := by
  decide

/-- C6 (amended).  For a valid document the Segment Source returns as a
single root-level section with no heading line, the parse succeeds and
the entire text becomes the `content` of a single header-less child of
the root, while the root's own `content` field stays empty; the child is
chunked by the same token-budget and fallback logic as any node. -/
theorem parse_headerless_child (tl : String → Nat)
    (seg : String → List ParsedNode) (text pb : String)
    (ht : pyStrip text ≠ "") (htxt : text ≠ "")
    (hseg : seg text = [⟨text, "/"⟩])
    (hhead : headingMatch (pyStrip ((sectionLines text).headD "")) = none) :
    ∃ pgs : Finset ℤ, parseMarkdownToTree tl seg text pb =
      Except.ok (.mk none "" 0 [.mk none text (tl text) [] pgs] ∅) := by
  have hpp : pathParts "/" = [] := by decide
  unfold parseMarkdownToTree
  rw [if_neg ht, hseg]
  rw [if_neg (by simp : ¬([(⟨text, "/"⟩ : ParsedNode)] = []))]
  simp only [List.foldlM_cons, List.foldlM_nil]
  unfold buildNode
  dsimp only
  rw [if_neg htxt, hhead, hpp]
  exact ⟨_, rfl⟩

/-- C7 counterexample: a section containing two embedded page-break
artifact lines keeps one of them in the resulting node's content (only
the first `"---"` element is removed). -/
theorem sectionLines_artifact_cex :
    (parseMarkdownToTree cnt (fun _ => [⟨"# H\n---\nx\n---\ny", "/"⟩])
        "# H\n---\nx\n---\ny" "\n---\n").toOption.map
        (fun t => t.children.map TreeElement.content) = some ["x\n---\ny"] ∧
    "---" ∈ pySplit "x\n---\ny" "\n" := by
  decide

/-- C7 (amended).  Exactly the first occurrence of the hard-coded
literal line `"---"` is removed from a section's split lines before
heading detection, whatever the configured page-break delimiter is
(every later artifact line survives the removal), and for a section with
no detected heading the removal does not reach the content at all: the
original section text, artifact lines included, becomes the node's
content verbatim. -/
theorem sectionLines_amended :
    (∀ t : String, (sectionLines t).count "---" = (pySplit t "\n").count "---" - 1) ∧
    (∀ (tl : String → Nat) (pb : String) (pages : List String) (nd : ParsedNode),
      nd.text ≠ "" →
      headingMatch (pyStrip ((sectionLines nd.text).headD "")) = none →
      (buildNode tl pb pages nd).map TreeElement.content = Except.ok nd.text) := by
  constructor
  · intro t
    exact List.count_erase_self _ _
  · intro tl pb pages nd hne hhead
    unfold buildNode
    dsimp only
    rw [if_neg hne, hhead]
    rfl

/-- Closed instance of `sectionLines_amended`: a two-artifact section
keeps one `"---"` after removal, and a heading-free section's content is
the raw text. -/
theorem sectionLines_amended_witness :
    (sectionLines "a\n---\n---\nb").count "---" =
      (pySplit "a\n---\n---\nb" "\n").count "---" - 1 ∧
    (buildNode cnt "\n---\n" ["pg"] ⟨"plain text", "/"⟩).map TreeElement.content =
      Except.ok "plain text" :=
  ⟨sectionLines_amended.1 "a\n---\n---\nb",
    sectionLines_amended.2 cnt "\n---\n" ["pg"] ⟨"plain text", "/"⟩
      (by decide) (by decide)⟩

/-- C10.  When a section's first raw line occurs in no page of the
document, the parse still succeeds and the node's page span is computed
from the sentinel index `-1`: its `pages` is the contiguous range
starting at `-1`, so the returned tree carries the negative page index
`-1`, which is not a valid 0-based page index. -/
theorem parse_negative_page_sentinel (tl : String → Nat) (pb text st : String)
    (ht : pyStrip text ≠ "") (hst : st ≠ "")
    (hnf : ∀ pg ∈ pySplit text pb, strIn (firstRawLine st) pg = false) :
    ∃ child : TreeElement,
      parseMarkdownToTree tl (fun _ => [⟨st, "/"⟩]) text pb =
        Except.ok (.mk none "" 0 [child] ∅) ∧
      child.pages = Finset.Ico (-1 : ℤ) (-1 + (countOcc pb st : ℤ) + 1) ∧
      (-1 : ℤ) ∈ child.pages := by
  have hpp : pathParts "/" = [] := by decide
  have hfind : (pySplit text pb).findIdx? (fun pg => strIn (firstRawLine st) pg) = none :=
    List.findIdx?_eq_none_iff.mpr hnf
  have hmem : (-1 : ℤ) ∈ Finset.Ico (-1 : ℤ) (-1 + (countOcc pb st : ℤ) + 1) := by
    rw [Finset.mem_Ico]
    refine ⟨le_refl _, ?_⟩
    have : (0 : ℤ) ≤ (countOcc pb st : ℤ) := Int.natCast_nonneg _
    omega
  unfold parseMarkdownToTree
  rw [if_neg ht]
  rw [if_neg (by simp : ¬([(⟨st, "/"⟩ : ParsedNode)] = []))]
  simp only [List.foldlM_cons, List.foldlM_nil]
  unfold buildNode
  dsimp only
  rw [if_neg hst, hfind, hpp]
  cases hm : headingMatch (pyStrip ((sectionLines st).headD "")) with
  | some h => exact ⟨_, rfl, rfl, hmem⟩
  | none => exact ⟨_, rfl, rfl, hmem⟩

/-- Closed instance of `parse_negative_page_sentinel`: with page break
`"-"` and document `"ab-cd"`, the single section's first raw line
`"ab-cd"` is contained in neither page, and its page set holds `-1`. -/
theorem parse_negative_page_sentinel_witness :
    ∃ child : TreeElement,
      parseMarkdownToTree cnt (fun _ => [⟨"ab-cd", "/"⟩]) "ab-cd" "-" =
        Except.ok (.mk none "" 0 [child] ∅) ∧
      child.pages = Finset.Ico (-1 : ℤ) (-1 + (countOcc "-" "ab-cd" : ℤ) + 1) ∧
      (-1 : ℤ) ∈ child.pages :=
  parse_negative_page_sentinel cnt "-" "ab-cd" "ab-cd"
    (by decide) (by decide) (by decide)

/-- Closed instance of `parse_headerless_child` at the document
`"hello world"`. -/
theorem parse_headerless_child_witness :
    ∃ pgs : Finset ℤ,
      parseMarkdownToTree cnt (fun _ => [⟨"hello world", "/"⟩])
          "hello world" "\n---\n" =
        Except.ok (.mk none "" 0
          [.mk none "hello world" (cnt "hello world") [] pgs] ∅) :=
  parse_headerless_child cnt (fun _ => [⟨"hello world", "/"⟩])
    "hello world" "\n---\n" (by decide) (by decide) rfl (by decide)

/-- C1 counterexample: for the node whose 12-token content exceeds the
budget of 2, the fallback splitter hands back one oversized group, and
the greedy merge pass returns it untouched, so the merged output
contains a chunk whose token length exceeds `max_tokens`. -/
theorem greedy_budget_cex :
    ∃ c ∈ processTreeToChunks cnt (fun s => [s]) 2
        (.mk none "aaaaaaaaaaaa" 12 [] ∅) [],
      2 < c.token_length := by
  decide

theorem mergeLoop_mem (tl : String → Nat) (maxTokens : Nat) :
    ∀ (rest : List SemanticChunk) (acc : Option SemanticChunk) (c : SemanticChunk),
    c ∈ mergeLoop tl maxTokens acc rest →
      acc = some c ∨ c ∈ rest ∨ c.token_length ≤ maxTokens
  | [], acc, c, h => by
      cases acc with
      | none => cases h
      | some a =>
          rw [List.mem_singleton.mp h]
          exact Or.inl rfl
  | r :: rest, acc, c, h => by
      cases acc with
      | none =>
          rcases mergeLoop_mem tl maxTokens rest (some r) c h with h' | h' | h'
          · exact Or.inr (Or.inl (List.mem_cons.mpr (Or.inl (Option.some.inj h').symm)))
          · exact Or.inr (Or.inl (List.mem_cons_of_mem r h'))
          · exact Or.inr (Or.inr h')
      | some a =>
          rw [mergeLoop] at h
          by_cases hc : (combineChunks tl a r).token_length ≤ maxTokens
          · rw [if_pos hc] at h
            rcases mergeLoop_mem tl maxTokens rest (some (combineChunks tl a r)) c h with
              h' | h' | h'
            · exact Or.inr (Or.inr ((Option.some.inj h') ▸ hc))
            · exact Or.inr (Or.inl (List.mem_cons_of_mem r h'))
            · exact Or.inr (Or.inr h')
          · rw [if_neg hc] at h
            rcases List.mem_cons.mp h with h' | h'
            · exact Or.inl (congrArg some h'.symm)
            · rcases mergeLoop_mem tl maxTokens rest (some r) c h' with h'' | h'' | h''
              · exact Or.inr (Or.inl (List.mem_cons.mpr (Or.inl (Option.some.inj h'').symm)))
              · exact Or.inr (Or.inl (List.mem_cons_of_mem r h''))
              · exact Or.inr (Or.inr h'')

theorem pyJoin_blank_sum (tl : String → Nat)
    (H1 : ∀ s t : String, tl (s ++ "\n\n" ++ t) = tl s + tl t) :
    ∀ parts : List String, parts ≠ [] →
      tl (pyJoin "\n\n" parts) = (parts.map tl).sum
  | [], h => absurd rfl h
  | [x], _ => by simp [pyJoin]
  | x :: y :: ys, _ => by
      show tl (x ++ "\n\n" ++ pyJoin "\n\n" (y :: ys)) = _
      rw [H1, pyJoin_blank_sum tl H1 (y :: ys) (by simp)]
      simp

theorem synthVal_nil (tl : String → Nat) (lvl : Nat) : synthVal tl lvl [] = 0 := rfl

theorem synthVal_cons (tl : String → Nat) (lvl : Nat) (x : String) (l : List String) :
    synthVal tl lvl (x :: l) = tl (headerLine lvl x) + synthVal tl (lvl + 1) l := by
  simp [synthVal, synthLines]

theorem synthVal_append (tl : String → Nat) :
    ∀ (xs ys : List String) (lvl : Nat),
      synthVal tl lvl (xs ++ ys) = synthVal tl lvl xs + synthVal tl (lvl + xs.length) ys
  | [], ys, lvl => by simp [synthVal, synthLines]
  | x :: xs, ys, lvl => by
      rw [List.cons_append, synthVal_cons, synthVal_cons,
        synthVal_append tl xs ys (lvl + 1), List.length_cons]
      have h : lvl + (xs.length + 1) = lvl + 1 + xs.length := by omega
      rw [h]
      omega

theorem synthVal_split (tl : String → Nat) (hs : List String) (k j : Nat)
    (hkj : k ≤ j) (hj : j ≤ hs.length) :
    synthVal tl (k + 1) (hs.drop k) =
      synthVal tl (k + 1) ((hs.take j).drop k) + synthVal tl (j + 1) (hs.drop j) := by
  have hlen : ((hs.take j).drop k).length = j - k := by
    simp [List.length_drop, List.length_take]
    omega
  have hsplit : hs.drop k = (hs.take j).drop k ++ hs.drop j := by
    conv_lhs => rw [← List.take_append_drop j hs]
    rw [List.drop_append_of_le_length]
    simp
    omega
  rw [hsplit, synthVal_append, hlen]
  have : k + 1 + (j - k) = j + 1 := by omega
  rw [this]

theorem cpl_take_min : ∀ (m l r : List String),
    commonPrefixLength m l = min (commonPrefixLength m (l ++ r)) l.length
  | m, [], r => by
      cases m <;> simp [commonPrefixLength]
  | [], x :: l, r => by simp [commonPrefixLength]
  | a :: m, x :: l, r => by
      simp only [List.cons_append, commonPrefixLength]
      by_cases h : a = x
      · rw [if_pos h, if_pos h, cpl_take_min m l r, List.length_cons]
        simp only [List.append_eq]
        omega
      · rw [if_neg h, if_neg h]
        simp

theorem combine_token (tl : String → Nat)
    (H1 : ∀ s t : String, tl (s ++ "\n\n" ++ t) = tl s + tl t)
    (H2 : ∀ s : String, tl ("\n" ++ s) = tl s)
    (a b : SemanticChunk) :
    (combineChunks tl a b).token_length =
      tl a.content + tl b.content +
        synthVal tl (commonPrefixLength a.headers b.headers + 1)
          (a.headers.drop (commonPrefixLength a.headers b.headers)) +
        synthVal tl (commonPrefixLength a.headers b.headers + 1)
          (b.headers.drop (commonPrefixLength a.headers b.headers)) := by
  show tl (combineContent a b) = _
  unfold combineContent
  dsimp only
  by_cases heq : a.headers = b.headers
  · rw [if_pos heq, H1]
    have h1 : a.headers.drop (commonPrefixLength a.headers b.headers) = [] := by
      rw [heq, cpl_self, List.drop_length]
    have h2 : b.headers.drop (commonPrefixLength a.headers b.headers) = [] := by
      rw [heq, cpl_self, List.drop_length]
    rw [h1, h2, synthVal_nil]
    omega
  · rw [if_neg heq]
    rw [pyJoin_blank_sum tl H1 _ (by simp)]
    simp only [List.map_append, List.sum_append, List.map_cons, List.sum_cons,
      List.map_nil, List.sum_nil, List.map_map]
    have hmap :
        List.map (tl ∘ fun l => "\n" ++ l)
          (synthLines (commonPrefixLength a.headers b.headers + 1)
            (b.headers.drop (commonPrefixLength a.headers b.headers))) =
        List.map tl
          (synthLines (commonPrefixLength a.headers b.headers + 1)
            (b.headers.drop (commonPrefixLength a.headers b.headers))) :=
      List.map_congr_left (fun x _ => H2 x)
    rw [hmap]
    unfold synthVal
    omega

theorem mergeAbsorbs_refl (tl : String → Nat) (c : SemanticChunk) :
    MergeAbsorbs tl c c := by
  refine ⟨List.prefix_rfl, ?_⟩
  rw [List.drop_length, synthVal_nil]
  omega

theorem mergeAbsorbs_trans (tl : String → Nat) {x y z : SemanticChunk}
    (hxy : MergeAbsorbs tl x y) (hyz : MergeAbsorbs tl y z) :
    MergeAbsorbs tl x z := by
  obtain ⟨hp1, hv1⟩ := hxy
  obtain ⟨hp2, hv2⟩ := hyz
  refine ⟨hp2.trans hp1, ?_⟩
  have htake : x.headers.take y.headers.length = y.headers :=
    (List.prefix_iff_eq_take.mp hp1).symm
  have hsplit := synthVal_split tl x.headers z.headers.length y.headers.length
    hp2.length_le hp1.length_le
  rw [htake] at hsplit
  unfold MergeAbsorbs at *
  omega

theorem mergeAbsorbs_combine (tl : String → Nat)
    (H1 : ∀ s t : String, tl (s ++ "\n\n" ++ t) = tl s + tl t)
    (H2 : ∀ s : String, tl ("\n" ++ s) = tl s)
    {c e : SemanticChunk} (d : SemanticChunk) (h : MergeAbsorbs tl c e) :
    MergeAbsorbs tl c (combineChunks tl e d) := by
  obtain ⟨hp, hv⟩ := h
  have hple : commonPrefixLength e.headers d.headers ≤ e.headers.length :=
    cpl_le_left _ _
  have hhd : (combineChunks tl e d).headers =
      e.headers.take (commonPrefixLength e.headers d.headers) := rfl
  have hlen : (combineChunks tl e d).headers.length =
      commonPrefixLength e.headers d.headers := by
    rw [hhd, List.length_take]
    omega
  constructor
  · rw [hhd]
    exact (List.take_prefix _ _).trans hp
  · rw [hlen]
    have hct := combine_token tl H1 H2 e d
    have htake : c.headers.take e.headers.length = e.headers :=
      (List.prefix_iff_eq_take.mp hp).symm
    have hsplit := synthVal_split tl c.headers
      (commonPrefixLength e.headers d.headers) e.headers.length hple hp.length_le
    rw [htake] at hsplit
    show tl c.content + _ ≤ (combineChunks tl e d).token_length
    rw [hct]
    omega

theorem flush_link (tl : String → Nat)
    (H1 : ∀ s t : String, tl (s ++ "\n\n" ++ t) = tl s + tl t)
    (H2 : ∀ s : String, tl ("\n" ++ s) = tl s)
    (maxTokens : Nat) {A c B : SemanticChunk} (hAbs : MergeAbsorbs tl c B)
    (hgt : maxTokens < (combineChunks tl A c).token_length) :
    maxTokens < (combineChunks tl A B).token_length := by
  obtain ⟨hp, hv⟩ := hAbs
  obtain ⟨r, hr⟩ := hp
  have hpmin : commonPrefixLength A.headers B.headers =
      min (commonPrefixLength A.headers c.headers) B.headers.length := by
    rw [← hr]
    exact cpl_take_min A.headers B.headers r
  rw [combine_token tl H1 H2 A c] at hgt
  rw [combine_token tl H1 H2 A B]
  by_cases hnp : commonPrefixLength A.headers c.headers ≤ B.headers.length
  · have hp' : commonPrefixLength A.headers B.headers =
        commonPrefixLength A.headers c.headers := by
      rw [hpmin]
      omega
    rw [hp']
    have hnc : B.headers.length ≤ c.headers.length := by
      rw [← hr, List.length_append]
      omega
    have hsplitc := synthVal_split tl c.headers
      (commonPrefixLength A.headers c.headers) B.headers.length hnp hnc
    have htakec : c.headers.take B.headers.length = B.headers := by
      rw [← hr]
      exact List.take_left _ _
    rw [htakec] at hsplitc
    omega
  · push_neg at hnp
    have hp' : commonPrefixLength A.headers B.headers = B.headers.length := by
      rw [hpmin]
      omega
    rw [hp']
    have hdropB : B.headers.drop B.headers.length = [] := List.drop_length _
    rw [hdropB, synthVal_nil]
    have hsplitA := synthVal_split tl A.headers B.headers.length
      (commonPrefixLength A.headers c.headers) (le_of_lt hnp) (cpl_le_left _ _)
    have hsplitC := synthVal_split tl c.headers B.headers.length
      (commonPrefixLength A.headers c.headers) (le_of_lt hnp) (cpl_le_right _ _)
    omega

theorem mergeLoop_head (tl : String → Nat)
    (H1 : ∀ s t : String, tl (s ++ "\n\n" ++ t) = tl s + tl t)
    (H2 : ∀ s : String, tl ("\n" ++ s) = tl s) (maxTokens : Nat) :
    ∀ (rest : List SemanticChunk) (c : SemanticChunk),
    ∃ B out, mergeLoop tl maxTokens (some c) rest = B :: out ∧ MergeAbsorbs tl c B
  | [], c => ⟨c, [], rfl, mergeAbsorbs_refl tl c⟩
  | r :: rest, c => by
      rw [mergeLoop]
      by_cases hc : (combineChunks tl c r).token_length ≤ maxTokens
      · rw [if_pos hc]
        obtain ⟨B, out, hEq, hAbs⟩ :=
          mergeLoop_head tl H1 H2 maxTokens rest (combineChunks tl c r)
        exact ⟨B, out, hEq,
          mergeAbsorbs_trans tl
            (mergeAbsorbs_combine tl H1 H2 r (mergeAbsorbs_refl tl c)) hAbs⟩
      · rw [if_neg hc]
        exact ⟨c, _, rfl, mergeAbsorbs_refl tl c⟩

theorem mergeLoop_chain (tl : String → Nat)
    (H1 : ∀ s t : String, tl (s ++ "\n\n" ++ t) = tl s + tl t)
    (H2 : ∀ s : String, tl ("\n" ++ s) = tl s) (maxTokens : Nat) :
    ∀ (rest : List SemanticChunk) (a : SemanticChunk),
    List.Chain' (fun x y => maxTokens < (combineChunks tl x y).token_length)
      (mergeLoop tl maxTokens (some a) rest)
  | [], a => by
      rw [mergeLoop]
      exact List.chain'_singleton a
  | r :: rest, a => by
      rw [mergeLoop]
      by_cases hc : (combineChunks tl a r).token_length ≤ maxTokens
      · rw [if_pos hc]
        exact mergeLoop_chain tl H1 H2 maxTokens rest (combineChunks tl a r)
      · rw [if_neg hc]
        obtain ⟨B, out, hEq, hAbs⟩ := mergeLoop_head tl H1 H2 maxTokens rest r
        rw [hEq, List.chain'_cons]
        constructor
        · exact flush_link tl H1 H2 maxTokens hAbs (Nat.lt_of_not_le hc)
        · rw [← hEq]
          exact mergeLoop_chain tl H1 H2 maxTokens rest r

/-- C1 (amended).  For a tokenizer that is additive across the blank
line used by the combine algorithm and insensitive to a leading newline
(the word-count test tokenizer of the design document is both), the
greedy merge pass of `process_tree_to_chunks` guarantees: every chunk of
the merged output either has `token_length ≤ max_tokens` or is a chunk
of the pre-merge working list passed through without ever being merged
(an oversized fallback-splitter product survives unchanged), and no two
adjacent chunks of the merged output can be combined without the
combination's token length exceeding `max_tokens`. -/
theorem mergeChunks_budget_and_chain (tl : String → Nat)
    (H1 : ∀ s t : String, tl (s ++ "\n\n" ++ t) = tl s + tl t)
    (H2 : ∀ s : String, tl ("\n" ++ s) = tl s)
    (split : String → List String) (maxTokens : Nat) (root : TreeElement)
    (hd : List String) :
    (∀ c ∈ processTreeToChunks tl split maxTokens root hd,
      c.token_length ≤ maxTokens ∨ c ∈ preMergeChunks tl split maxTokens root hd) ∧
    List.Chain' (fun x y => maxTokens < (combineChunks tl x y).token_length)
      (processTreeToChunks tl split maxTokens root hd) := by
  rw [processTreeToChunks_run]
  constructor
  · intro c hc
    rcases mergeLoop_mem tl maxTokens (preMergeChunks tl split maxTokens root hd)
      none c hc with h | h | h
    · cases h
    · exact Or.inr h
    · exact Or.inl h
  · show List.Chain' _ (mergeLoop tl maxTokens none _)
    rcases hl : preMergeChunks tl split maxTokens root hd with _ | ⟨x, xs⟩
    · rw [mergeLoop]
      exact List.chain'_nil
    · rw [mergeLoop]
      exact mergeLoop_chain tl H1 H2 maxTokens xs x

theorem cnt_append (s t : String) : cnt (s ++ t) = cnt s + cnt t := by
  unfold cnt
  rw [String.data_append, List.filter_append, List.length_append]

theorem cnt_blank_add (s t : String) : cnt (s ++ "\n\n" ++ t) = cnt s + cnt t := by
  rw [cnt_append, cnt_append]
  have h : cnt "\n\n" = 0 := rfl
  omega

theorem cnt_newline (s : String) : cnt ("\n" ++ s) = cnt s := by
  rw [cnt_append]
  have h : cnt "\n" = 0 := rfl
  omega

/-- Closed instance of `mergeChunks_budget_and_chain` at the word-count
tokenizer `cnt` and a concrete two-chunk node. -/
theorem mergeChunks_budget_and_chain_witness :
    (∀ c ∈ processTreeToChunks cnt (fun s => [s]) 3 (.mk none "w w" 2 [] ∅) [],
      c.token_length ≤ 3 ∨
        c ∈ preMergeChunks cnt (fun s => [s]) 3 (.mk none "w w" 2 [] ∅) []) ∧
    List.Chain' (fun x y => 3 < (combineChunks cnt x y).token_length)
      (processTreeToChunks cnt (fun s => [s]) 3 (.mk none "w w" 2 [] ∅) []) :=
  mergeChunks_budget_and_chain cnt cnt_blank_add cnt_newline (fun s => [s]) 3
    (.mk none "w w" 2 [] ∅) []
